import Mathlib

/-!
Verification of the `logos` write path: the in-memory sorted write buffer
(`MemTable`), its immutable snapshot (`SSTable`), and the orchestrating
`Driver` from `src/logos`.

The repository contains several iterations of the memtable:
* `src/logos/src/db.rs` — `BTreeMap`-backed, with a capacity check in
  `write` (`Error::MemTableFull` when `size == CAPACITY`); namespace `DbRs`.
* `src/logos/src/db/mod.rs` — `BTreeMap`-backed, `write` returns unit and
  performs no capacity check; namespace `DbMod`.
* `src/logos/src/db/table.rs` — `Vec`-backed, `items()` deduplicates by
  scanning the vector in reverse; namespace `TableRs`.
`src/logos/src/driver.rs` builds the engine (`Driver`) on `crate::db`'s
`MemTable` and `SSTable`; namespace `Drv`.

Rust's `BTreeMap<String, u32>` is modelled as an association list strictly
sorted by key under the lexicographic order on UTF-8 strings.  `BTreeMap`
orders `String` keys lexicographically by UTF-8 bytes, which coincides with
lexicographic order on Unicode code points; `strLt` below implements that
order on the code points (`Char.toNat`) of the string's characters.
`u32` values are carried as `Nat`: no arithmetic is ever performed on a
value, it is stored and returned unchanged, so overflow cannot arise.
-/

namespace Logos

/-- Lexicographic order on lists of characters, comparing code points. -/
def charsLt : List Char → List Char → Bool
  | [], [] => false
  | [], _ :: _ => true
  | _ :: _, [] => false
  | a :: as, b :: bs =>
    if a.toNat < b.toNat then true
    else if b.toNat < a.toNat then false
    else charsLt as bs

/-- The key order of `BTreeMap<String, _>`: lexicographic on the string's
code points, which for UTF-8 strings equals byte-lexicographic order. -/
def strLt (a b : String) : Bool := charsLt a.data b.data

/-- `BTreeMap::insert` on the sorted-association-list model of
`BTreeMap<String, u32>`: place the new pair before the first strictly
greater key, replacing the entry whose key is equal if one exists. -/
def mapInsert (k : String) (v : Nat) : List (String × Nat) → List (String × Nat)
  | [] => [(k, v)]
  | (k1, v1) :: rest =>
    if strLt k k1 then (k, v) :: (k1, v1) :: rest
    else if k = k1 then (k, v) :: rest
    else (k1, v1) :: mapInsert k v rest

/-- `BTreeMap::get` on the model: the value at the first matching key. -/
def mapGet (k : String) : List (String × Nat) → Option Nat
  | [] => none
  | (k1, v1) :: rest => if k = k1 then some v1 else mapGet k rest

/-- The keys of the model are strictly sorted (the `BTreeMap` invariant). -/
def SortedKeys (l : List (String × Nat)) : Prop :=
  l.Pairwise (fun a b => strLt a.1 b.1 = true)

/-- The error enum of `src/logos/src/lib.rs`.  `IoError` carries a
`std::io::Error` payload in the source; the payload is never inspected by
the code under verification, so it is modelled as a bare constructor.
(`src/logos/src/db/mod.rs` declares its own sibling enum with
`SerializeError` in place of `BincodeError` and no `MemTableFull`; the
driver path uses the `lib.rs` enum, which is the one modelled here.) -/
inductive Error where
  | BincodeError
  | IoError
  | MemTableFull
deriving DecidableEq, Repr

/-- `Entry` from `src/logos/src/db.rs` (the identical struct appears in
`src/logos/src/db/mod.rs`).  The Rust `PartialEq` impl compares keys only;
Lean's derived equality compares both fields, which is finer, so every
equality proved here entails the Rust one. -/
structure Entry where
  key : String
  value : Nat
deriving DecidableEq, Repr

namespace DbRs

/-- `CAPACITY` from `src/logos/src/db.rs`. -/
def CAPACITY : Nat := 10000

/-- `MemTable` from `src/logos/src/db.rs`: a `BTreeMap<String, u32>` plus a
`size` counter.  The Rust field `items` (the map) is named `itemsMap` here
because the struct also has a method `items()`, modelled below as
`MemTable.items`. -/
structure MemTable where
  itemsMap : List (String × Nat)
  size : Nat
deriving DecidableEq, Repr

/-- `MemTable::new`. -/
def MemTable.new : MemTable := ⟨[], 0⟩

/-- `MemTable::write` from `src/logos/src/db.rs`: rejects with
`Error::MemTableFull` when `size == CAPACITY`, otherwise inserts and
increments `size` (also on overwrite). -/
def MemTable.write (t : MemTable) (key : String) (value : Nat) :
    Except Error MemTable :=
  if t.size = CAPACITY then .error .MemTableFull
  else .ok ⟨mapInsert key value t.itemsMap, t.size + 1⟩

/-- `MemTable::write` as seen by a caller that drops the `Result` (the
early `return Err` leaves `&mut self` unmodified, so on error the table is
unchanged). -/
def MemTable.writeD (t : MemTable) (key : String) (value : Nat) : MemTable :=
  match t.write key value with
  | .ok t1 => t1
  | .error _ => t

/-- `MemTable::read`. -/
def MemTable.read (t : MemTable) (key : String) : Option Nat :=
  mapGet key t.itemsMap

/-- `MemTable::items`: the map's iteration order, as `Entry` values. -/
def MemTable.items (t : MemTable) : List Entry :=
  t.itemsMap.map (fun p => ⟨p.1, p.2⟩)

end DbRs

namespace DbMod

/-- `MemTable` from `src/logos/src/db/mod.rs`: same shape as the `db.rs`
one, but `write` returns unit and performs no capacity check. -/
structure MemTable where
  itemsMap : List (String × Nat)
  size : Nat
deriving DecidableEq, Repr

/-- `MemTable::new`. -/
def MemTable.new : MemTable := ⟨[], 0⟩

/-- `MemTable::write` from `src/logos/src/db/mod.rs`: unconditionally
inserts and increments `size` (also on overwrite). -/
def MemTable.write (t : MemTable) (key : String) (value : Nat) : MemTable :=
  ⟨mapInsert key value t.itemsMap, t.size + 1⟩

/-- `MemTable::read`. -/
def MemTable.read (t : MemTable) (key : String) : Option Nat :=
  mapGet key t.itemsMap

/-- `MemTable::items`. -/
def MemTable.items (t : MemTable) : List Entry :=
  t.itemsMap.map (fun p => ⟨p.1, p.2⟩)

end DbMod

namespace TableRs

/-- `KeyValue` as used by `src/logos/src/db/table.rs` (`use super::KeyValue`).
Its declaration is not under `src/`.  Modelled from the spec and from its
uses in `table.rs`: a single ordered key/value record
`{ key: String, value: u32 }`. -/
structure KeyValue where
  key : String
  value : Nat
deriving DecidableEq, Repr

/-- `MemTable` from `src/logos/src/db/table.rs`: a plain `Vec<KeyValue>`
in insertion order plus a `size` counter.  The Rust field `items` is named
`itemsVec` here because the struct also has a method `items()`. -/
structure MemTable where
  itemsVec : List KeyValue
  size : Nat
deriving DecidableEq, Repr

/-- `MemTable::new`. -/
def MemTable.new : MemTable := ⟨[], 0⟩

/-- `MemTable::write`: pushes onto the vector, increments `size`. -/
def MemTable.write (t : MemTable) (key : String) (value : Nat) : MemTable :=
  ⟨t.itemsVec ++ [⟨key, value⟩], t.size + 1⟩

/-- `MemTable::read`: scans the vector in reverse, returns the first match. -/
def MemTable.read (t : MemTable) (key : String) : Option Nat :=
  (t.itemsVec.reverse.find? (fun kv => kv.key = key)).map KeyValue.value

/-- `MemTable::items` from `table.rs`: walks the vector in reverse and
keeps the first occurrence of each key (i.e. the last write), in that
reverse-scan order. -/
def MemTable.items (t : MemTable) : List KeyValue :=
  t.itemsVec.reverse.foldl
    (fun acc kv => if acc.any (fun s => s.key = kv.key) then acc else acc ++ [kv])
    []

end TableRs

/-- One little-endian byte sequence of the given width for a number, as the
`bincode` encoder emits fixed-width integers. -/
def leBytes : Nat → Nat → List Nat
  | 0, _ => []
  | w + 1, n => (n % 256) :: leBytes w (n / 256)

/-- UTF-8 encoding of one character (RFC 3629), as Rust strings are stored. -/
def charUtf8 (c : Char) : List Nat :=
  let n := c.toNat
  if n < 128 then [n]
  else if n < 2048 then [192 + n / 64, 128 + n % 64]
  else if n < 65536 then [224 + n / 4096, 128 + n / 64 % 64, 128 + n % 64]
  else [240 + n / 262144, 128 + n / 4096 % 64, 128 + n / 64 % 64, 128 + n % 64]

/-- UTF-8 bytes of a string. -/
def strBytes (s : String) : List Nat :=
  s.data.foldr (fun c acc => charUtf8 c ++ acc) []

namespace Drv

/-- The `MemTable` used by `src/logos/src/driver.rs` (`crate::db::MemTable`).
The map, `size`, `write`, `read` and `items` follow the `db` module
(`BTreeMap` plus counter; the driver discards `write`'s result, so the
unit-returning `db/mod.rs` form is used).  The constructor
`MemTable::with_capacity` and the method `at_capacity`, which `driver.rs`
calls, appear nowhere under `src/`.
Modelled from the spec: the missing `capacity` field holds the table's
configured CAPACITY (`with_capacity(c)` sets it, `new()` uses the default
CAPACITY of the `db` module), and `at_capacity() -> bool` is
"true iff count == CAPACITY". -/
structure MemTable where
  itemsMap : List (String × Nat)
  size : Nat
  capacity : Nat
deriving DecidableEq, Repr

/-- `MemTable::with_capacity` (declaration missing from `src/`; modelled
from the spec as creating an empty table with the given CAPACITY). -/
def MemTable.with_capacity (c : Nat) : MemTable := ⟨[], 0, c⟩

/-- `MemTable::new`: empty, with the `db` module's default CAPACITY. -/
def MemTable.new : MemTable := MemTable.with_capacity DbRs.CAPACITY

/-- `MemTable::at_capacity` (declaration missing from `src/`; modelled from
the spec: true iff count == CAPACITY). -/
def MemTable.at_capacity (t : MemTable) : Bool := t.size == t.capacity

/-- `MemTable::write` as the driver observes it (result discarded). -/
def MemTable.write (t : MemTable) (key : String) (value : Nat) : MemTable :=
  ⟨mapInsert key value t.itemsMap, t.size + 1, t.capacity⟩

/-- `MemTable::read`. -/
def MemTable.read (t : MemTable) (key : String) : Option Nat :=
  mapGet key t.itemsMap

/-- `MemTable::items`. -/
def MemTable.items (t : MemTable) : List Entry :=
  t.itemsMap.map (fun p => ⟨p.1, p.2⟩)

/-- `SSTable` from the `db` module: the immutable snapshot (Segment). -/
structure SSTable where
  entries : List Entry
deriving DecidableEq, Repr

/-- `impl From<&MemTable> for SSTable`: copies `items()`. -/
def SSTable.fromTable (t : MemTable) : SSTable := ⟨t.items⟩

/-- The byte stream `bincode::serialize` produces for an `SSTable`: a
struct is its fields in order, a `Vec` is a `u64` little-endian length
followed by its elements, a `String` is a `u64` length plus UTF-8 bytes,
and a `u32` is four little-endian bytes. -/
def bincodeSSTable (entries : List Entry) : List Nat :=
  leBytes 8 entries.length ++
    entries.foldr
      (fun e acc =>
        leBytes 8 (strBytes e.key).length ++ strBytes e.key ++
          leBytes 4 e.value ++ acc)
      []

/-- `SSTable::into_bytes`: `bincode::serialize(self)` with encoder errors
mapped to `Error::BincodeError`.  On `Vec<Entry>` of `String`/`u32` the
encoder never fails, so the result is always `Ok`. -/
def SSTable.into_bytes (s : SSTable) : Except Error (List Nat) :=
  .ok (bincodeSSTable s.entries)

/-- `Driver` from `src/logos/src/driver.rs`. -/
structure Driver where
  master : MemTable
  offset : Nat
deriving DecidableEq, Repr

/-- `Driver::new`. -/
def Driver.new : Driver := ⟨MemTable.new, 0⟩

/-- The observable record of one flush: the offset it allocated, the
entries captured into the Segment, and the bytes handed to the spawned
persistence task. -/
structure Flush where
  offset : Nat
  entries : List Entry
  bytes : List Nat
deriving DecidableEq, Repr

/-- `Driver::flush_table`, with the serializer (`SSTable::into_bytes`) as
an explicit parameter so that its failure path can be analysed.  The
source order is kept: the `SSTable` is captured, then `self.master` is
replaced by `MemTable::new()`, then the bytes are built (`?` propagates a
failure at this point, with `master` already replaced and `offset` still
unchanged), then the offset is allocated and the spawn submitted.  The
returned `Driver` is the state of `self` when the function returns. -/
def flushWith (encode : SSTable → Except Error (List Nat)) (d : Driver) :
    Driver × Except Error Flush :=
  let sst := SSTable.fromTable d.master
  let d1 : Driver := { d with master := MemTable.new }
  match encode sst with
  | .error e => (d1, .error e)
  | .ok bytes => ({ d1 with offset := d.offset + 1 }, .ok ⟨d.offset, sst.entries, bytes⟩)

/-- `Driver::flush_table` with the real serializer. -/
def Driver.flush_table (d : Driver) : Driver × Except Error Flush :=
  flushWith SSTable.into_bytes d

/-- `Driver::write`, with the serializer as a parameter (see `flushWith`).
The `Ok` payload records the flush this write triggered, if any; `?` on a
failing flush propagates before the triggering write is applied. -/
def writeWith (encode : SSTable → Except Error (List Nat)) (d : Driver)
    (key : String) (value : Nat) : Driver × Except Error (Option Flush) :=
  if d.master.at_capacity then
    match flushWith encode d with
    | (d1, .error e) => (d1, .error e)
    | (d1, .ok f) =>
        ({ d1 with master := d1.master.write key value }, .ok (some f))
  else
    ({ d with master := d.master.write key value }, .ok none)

/-- `Driver::write` with the real serializer. -/
def Driver.write (d : Driver) (key : String) (value : Nat) :
    Driver × Except Error (Option Flush) :=
  writeWith SSTable.into_bytes d key value

/-- `write_sst` from `driver.rs`.  `File::create("logos/{offset}.sst")`
followed by `write_all(&bytes)` is an opaque durable sink; the `sink`
parameter stands for the filesystem and returns the I/O result. -/
def write_sst (sink : Nat → List Nat → Except Error Unit) (offset : Nat)
    (bytes : List Nat) : Except Error Unit :=
  sink offset bytes

/-- The body of the task `flush_table` spawns:
`let _ = write_sst(offset, bytes);`.  The `Result` is bound to `_` and
dropped, and the `JoinHandle` returned by `tokio::task::spawn` is itself
discarded, so the value a task delivers to the rest of the program is
`()` — this definition's codomain records that no error channel exists. -/
def spawnedTask (sink : Nat → List Nat → Except Error Unit) (offset : Nat)
    (bytes : List Nat) : Unit :=
  let _ := write_sst sink offset bytes
  ()

/-- One engine call: a `write(key, value)` or an explicit `flush_table()`. -/
inductive Op where
  | write (key : String) (value : Nat)
  | flush
deriving DecidableEq, Repr

/-- Run one call against the driver, returning the flush it performed, if
any (with the real serializer neither call can fail). -/
def Driver.runOp (d : Driver) : Op → Driver × Option Flush
  | .write k v =>
    match d.write k v with
    | (d1, .ok f) => (d1, f)
    | (d1, .error _) => (d1, none)
  | .flush =>
    match d.flush_table with
    | (d1, .ok f) => (d1, some f)
    | (d1, .error _) => (d1, none)

/-- Run a sequence of calls, collecting every flush that occurred. -/
def runOps (d : Driver) : List Op → Driver × List Flush
  | [] => (d, [])
  | op :: rest =>
    ((runOps (d.runOp op).1 rest).1,
      (d.runOp op).2.toList ++ (runOps (d.runOp op).1 rest).2)

end Drv

deriving instance DecidableEq for Except

/-- The ten writes of the driver.rs capacity test scenario: keys `"0"`
through `"9"` with values 0 through 9. -/
def c1Ops : List Drv.Op :=
  [.write "0" 0, .write "1" 1, .write "2" 2, .write "3" 3, .write "4" 4,
   .write "5" 5, .write "6" 6, .write "7" 7, .write "8" 8, .write "9" 9]

/-- The expected Segment contents for that scenario, in ascending key
order. -/
def c1Entries : List Entry :=
  [⟨"0", 0⟩, ⟨"1", 1⟩, ⟨"2", 2⟩, ⟨"3", 3⟩, ⟨"4", 4⟩,
   ⟨"5", 5⟩, ⟨"6", 6⟩, ⟨"7", 7⟩, ⟨"8", 8⟩, ⟨"9", 9⟩]

/-- A serializer that fails, standing for `bincode::serialize` returning
`Err` (mapped to `Error::BincodeError` by `into_bytes`); used to analyse
`flush_table`'s failure path, which the always-`Ok` concrete encoder never
exercises. -/
def failEncode : Drv.SSTable → Except Error (List Nat) := fun _ => .error .BincodeError

/-- A driver whose table holds one entry and is at capacity (reachable by
writing key "a" ten times into a `with_capacity(10)` table), with five
flushes already performed. -/
def c5Driver : Drv.Driver := ⟨⟨[("a", 1)], 10, 10⟩, 5⟩

/-- A durable sink whose write fails, standing for `File::create` or
`write_all` returning an I/O error inside the spawned persistence task. -/
def failingSink : Nat → List Nat → Except Error Unit := fun _ _ => .error .IoError



/-! ### Order and map lemmas -/

theorem charsLt_irrefl (l : List Char) : charsLt l l = false := by
  induction l with
  | nil => rfl
  | cons a as ih => simp [charsLt, ih]

theorem charEq_of_not_lt {x y : Char} (h1 : ¬ x.toNat < y.toNat)
    (h2 : ¬ y.toNat < x.toNat) : x = y := by
  have hn : x.toNat = y.toNat := by omega
  simp only [Char.toNat] at hn
  exact Char.ext (UInt32.toNat.inj hn)

theorem charsLt_asymm (a b : List Char) (h : charsLt a b = true) :
    charsLt b a = false := by
  induction a generalizing b with
  | nil =>
    cases b with
    | nil => simp [charsLt] at h
    | cons y ys => simp [charsLt]
  | cons x xs ih =>
    cases b with
    | nil => simp [charsLt] at h
    | cons y ys =>
      by_cases hxy : x.toNat < y.toNat
      · simp [charsLt, Nat.lt_asymm hxy, hxy]
      · by_cases hyx : y.toNat < x.toNat
        · simp [charsLt, hxy, hyx] at h
        · have hc : x = y := charEq_of_not_lt hxy hyx
          subst hc
          simp [charsLt] at h ⊢
          exact ih ys h

theorem charsLt_trans (a b c : List Char) (hab : charsLt a b = true)
    (hbc : charsLt b c = true) : charsLt a c = true := by
  induction a generalizing b c with
  | nil =>
    cases b with
    | nil => simp [charsLt] at hab
    | cons y ys =>
      cases c with
      | nil => simp [charsLt] at hbc
      | cons z zs => simp [charsLt]
  | cons x xs ih =>
    cases b with
    | nil => simp [charsLt] at hab
    | cons y ys =>
      cases c with
      | nil => simp [charsLt] at hbc
      | cons z zs =>
        by_cases hxy : x.toNat < y.toNat
        · by_cases hyz : y.toNat < z.toNat
          · simp [charsLt, Nat.lt_trans hxy hyz]
          · by_cases hzy : z.toNat < y.toNat
            · simp [charsLt, hyz, hzy] at hbc
            · have hc : y = z := charEq_of_not_lt hyz hzy
              subst hc
              simp [charsLt, hxy]
        · by_cases hyx : y.toNat < x.toNat
          · simp [charsLt, hxy, hyx] at hab
          · have hc : x = y := charEq_of_not_lt hxy hyx
            subst hc
            simp [charsLt] at hab
            by_cases hyz : x.toNat < z.toNat
            · simp [charsLt, hyz]
            · by_cases hzy : z.toNat < x.toNat
              · simp [charsLt, hyz, hzy] at hbc
              · have hc2 : x = z := charEq_of_not_lt hyz hzy
                subst hc2
                simp [charsLt] at hbc ⊢
                exact ih ys zs hab hbc

theorem charsLt_total (a b : List Char) (hab : charsLt a b = false)
    (hba : charsLt b a = false) : a = b := by
  induction a generalizing b with
  | nil =>
    cases b with
    | nil => rfl
    | cons y ys => simp [charsLt] at hab
  | cons x xs ih =>
    cases b with
    | nil => simp [charsLt] at hba
    | cons y ys =>
      by_cases hxy : x.toNat < y.toNat
      · simp [charsLt, hxy] at hab
      · by_cases hyx : y.toNat < x.toNat
        · simp [charsLt, hxy, hyx] at hba
        · have hc : x = y := charEq_of_not_lt hxy hyx
          subst hc
          simp [charsLt] at hab hba
          exact congrArg (x :: ·) (ih ys hab hba)

theorem strLt_irrefl (s : String) : strLt s s = false := charsLt_irrefl s.data

theorem strLt_asymm (a b : String) (h : strLt a b = true) : strLt b a = false :=
  charsLt_asymm a.data b.data h

theorem strLt_trans (a b c : String) (hab : strLt a b = true)
    (hbc : strLt b c = true) : strLt a c = true :=
  charsLt_trans a.data b.data c.data hab hbc

theorem strLt_total (a b : String) (hab : strLt a b = false)
    (hba : strLt b a = false) : a = b := by
  cases a with
  | mk da =>
    cases b with
    | mk db => exact congrArg String.mk (charsLt_total da db hab hba)

theorem strLt_ne (a b : String) (h : strLt a b = true) : a ≠ b := by
  intro he
  subst he
  rw [strLt_irrefl] at h
  exact Bool.false_ne_true h

theorem mapGet_mapInsert_self (k : String) (v : Nat)
    (l : List (String × Nat)) : mapGet k (mapInsert k v l) = some v := by
  induction l with
  | nil => simp [mapInsert, mapGet]
  | cons p rest ih =>
    obtain ⟨k1, v1⟩ := p
    by_cases h1 : strLt k k1
    · simp [mapInsert, mapGet, h1]
    · by_cases h2 : k = k1
      · subst h2
        simp [mapInsert, mapGet, strLt_irrefl]
      · simp [mapInsert, mapGet, h1, h2, ih]

theorem mapGet_mapInsert_ne (k k2 : String) (v : Nat)
    (l : List (String × Nat)) (hne : k2 ≠ k) :
    mapGet k2 (mapInsert k v l) = mapGet k2 l := by
  induction l with
  | nil => simp [mapInsert, mapGet, hne]
  | cons p rest ih =>
    obtain ⟨k1, v1⟩ := p
    by_cases h1 : strLt k k1
    · simp [mapInsert, mapGet, h1, hne]
    · by_cases h2 : k = k1
      · subst h2
        simp [mapInsert, mapGet, h1, hne]
      · simp [mapInsert, mapGet, h1, h2, ih]

theorem mem_mapInsert (k : String) (v : Nat) (l : List (String × Nat))
    (p : String × Nat) (hp : p ∈ mapInsert k v l) : p = (k, v) ∨ p ∈ l := by
  induction l with
  | nil => simpa [mapInsert] using hp
  | cons q rest ih =>
    obtain ⟨k1, v1⟩ := q
    by_cases h1 : strLt k k1
    · simp only [mapInsert, h1, if_true, List.mem_cons] at hp
      rcases hp with h | h | h
      · exact Or.inl h
      · exact Or.inr (by simp [h])
      · exact Or.inr (by simp [h])
    · by_cases h2 : k = k1
      · subst h2
        simp only [mapInsert, strLt_irrefl, Bool.false_eq_true, if_false,
          if_true, List.mem_cons] at hp
        rcases hp with h | h
        · exact Or.inl h
        · exact Or.inr (by simp [h])
      · simp [mapInsert, h1, h2] at hp
        rcases hp with h | h
        · exact Or.inr (by simp [h])
        · rcases ih h with h' | h'
          · exact Or.inl h'
          · exact Or.inr (by simp [h'])

theorem sortedKeys_mapInsert (k : String) (v : Nat) (l : List (String × Nat))
    (hs : SortedKeys l) : SortedKeys (mapInsert k v l) := by
  induction l with
  | nil => simp [mapInsert, SortedKeys]
  | cons p rest ih =>
    obtain ⟨k1, v1⟩ := p
    rw [SortedKeys, List.pairwise_cons] at hs
    obtain ⟨hhead, htail⟩ := hs
    by_cases h1 : strLt k k1
    · rw [SortedKeys, mapInsert]
      simp only [h1, if_true]
      refine List.Pairwise.cons ?_ (List.Pairwise.cons hhead htail)
      intro q hq
      rcases hq with _ | hq
      · exact h1
      · exact strLt_trans _ _ _ h1 (hhead _ (by assumption))
    · by_cases h2 : k = k1
      · subst h2
        rw [SortedKeys, mapInsert]
        simp only [strLt_irrefl, Bool.false_eq_true, if_false, if_true]
        exact List.Pairwise.cons hhead htail
      · rw [SortedKeys, mapInsert]
        simp only [h1, h2, if_false]
        refine List.Pairwise.cons ?_ (ih htail)
        intro q hq
        rcases mem_mapInsert k v rest q hq with h | h
        · subst h
          by_cases hk : strLt k1 k
          · exact hk
          · have h1' : strLt k k1 = false := by simpa using h1
            have hk' : strLt k1 k = false := by simpa using hk
            exact absurd (strLt_total _ _ h1' hk') h2
        · exact hhead _ h


/-! ### MemTable fold lemmas -/

theorem DbRs.writeD_of_ne (t : DbRs.MemTable) (k : String) (v : Nat)
    (h : t.size ≠ DbRs.CAPACITY) :
    t.writeD k v = ⟨mapInsert k v t.itemsMap, t.size + 1⟩ := by
  simp [DbRs.MemTable.writeD, DbRs.MemTable.write, h]

theorem DbRs.writeD_of_eq (t : DbRs.MemTable) (k : String) (v : Nat)
    (h : t.size = DbRs.CAPACITY) : t.writeD k v = t := by
  simp [DbRs.MemTable.writeD, DbRs.MemTable.write, h]

theorem DbRs.foldD_eq (writes : List (String × Nat)) (t : DbRs.MemTable)
    (h : t.size + writes.length ≤ DbRs.CAPACITY) :
    writes.foldl (fun a p => a.writeD p.1 p.2) t =
      ⟨writes.foldl (fun l p => mapInsert p.1 p.2 l) t.itemsMap,
        t.size + writes.length⟩ := by
  induction writes generalizing t with
  | nil => simp
  | cons p rest ih =>
    obtain ⟨k, v⟩ := p
    have hne : t.size ≠ DbRs.CAPACITY := by
      simp only [List.length_cons] at h
      omega
    rw [List.foldl_cons, List.foldl_cons, DbRs.writeD_of_ne t k v hne,
      ih ⟨mapInsert k v t.itemsMap, t.size + 1⟩ (by simp at h ⊢; omega)]
    simp
    omega

theorem mapGet_fold_not_mem (writes : List (String × Nat))
    (l0 : List (String × Nat)) (k : String)
    (h : k ∉ writes.map Prod.fst) :
    mapGet k (writes.foldl (fun l p => mapInsert p.1 p.2 l) l0) = mapGet k l0 := by
  induction writes generalizing l0 with
  | nil => rfl
  | cons p rest ih =>
    obtain ⟨k1, v1⟩ := p
    simp only [List.map_cons, List.mem_cons] at h
    push_neg at h
    rw [List.foldl_cons, ih (mapInsert k1 v1 l0) h.2,
      mapGet_mapInsert_ne k1 k v1 l0 h.1]

theorem mapGet_fold_mem (writes : List (String × Nat))
    (l0 : List (String × Nat)) (k : String) (v : Nat)
    (hnd : (writes.map Prod.fst).Nodup) (hmem : (k, v) ∈ writes) :
    mapGet k (writes.foldl (fun l p => mapInsert p.1 p.2 l) l0) = some v := by
  induction writes generalizing l0 with
  | nil => simp at hmem
  | cons p rest ih =>
    obtain ⟨k1, v1⟩ := p
    simp only [List.map_cons, List.nodup_cons] at hnd
    rcases List.mem_cons.mp hmem with h | h
    · obtain ⟨hk, hv⟩ := Prod.mk.injEq .. ▸ h
      subst hk
      subst hv
      rw [List.foldl_cons, mapGet_fold_not_mem rest _ k hnd.1,
        mapGet_mapInsert_self]
    · exact List.foldl_cons .. ▸ ih (mapInsert k1 v1 l0) hnd.2 h

theorem DbRs.sortedKeys_writeD (t : DbRs.MemTable) (k : String) (v : Nat)
    (hs : SortedKeys t.itemsMap) : SortedKeys (t.writeD k v).itemsMap := by
  by_cases h : t.size = DbRs.CAPACITY
  · rw [DbRs.writeD_of_eq t k v h]
    exact hs
  · rw [DbRs.writeD_of_ne t k v h]
    exact sortedKeys_mapInsert k v t.itemsMap hs

theorem DbRs.sortedKeys_foldD (writes : List (String × Nat))
    (t : DbRs.MemTable) (hs : SortedKeys t.itemsMap) :
    SortedKeys ((writes.foldl (fun a p => a.writeD p.1 p.2) t).itemsMap) := by
  induction writes generalizing t with
  | nil => exact hs
  | cons p rest ih =>
    rw [List.foldl_cons]
    exact ih (t.writeD p.1 p.2) (DbRs.sortedKeys_writeD t p.1 p.2 hs)

theorem DbMod.size_fold (writes : List (String × Nat)) (t : DbMod.MemTable) :
    (writes.foldl (fun a p => a.write p.1 p.2) t).size =
      t.size + writes.length := by
  induction writes generalizing t with
  | nil => simp
  | cons p rest ih =>
    rw [List.foldl_cons, ih (t.write p.1 p.2)]
    simp [DbMod.MemTable.write]
    omega

/-! ### Driver lemmas -/

theorem Drv.flush_table_eq (d : Drv.Driver) :
    d.flush_table =
      (⟨Drv.MemTable.new, d.offset + 1⟩,
        .ok ⟨d.offset, d.master.items, bincodeSSTable d.master.items⟩) := rfl

theorem Drv.write_not_at_capacity (d : Drv.Driver) (k : String) (v : Nat)
    (h : d.master.at_capacity = false) :
    d.write k v = ({ d with master := d.master.write k v }, .ok none) := by
  simp [Drv.Driver.write, Drv.writeWith, h]

theorem Drv.write_at_capacity (d : Drv.Driver) (k : String) (v : Nat)
    (h : d.master.at_capacity = true) :
    d.write k v =
      (⟨Drv.MemTable.new.write k v, d.offset + 1⟩,
        .ok (some ⟨d.offset, d.master.items, bincodeSSTable d.master.items⟩)) := by
  simp [Drv.Driver.write, Drv.writeWith, h, Drv.flushWith, Drv.SSTable.into_bytes,
    Drv.SSTable.fromTable]

theorem Drv.runOp_offsets (d : Drv.Driver) (op : Drv.Op) :
    ((d.runOp op).2.toList.map Drv.Flush.offset =
        List.range' d.offset (d.runOp op).2.toList.length) ∧
      (d.runOp op).1.offset = d.offset + (d.runOp op).2.toList.length := by
  cases op with
  | write k v =>
    by_cases h : d.master.at_capacity
    · rw [Drv.Driver.runOp, Drv.write_at_capacity d k v h]
      simp
    · rw [Drv.Driver.runOp, Drv.write_not_at_capacity d k v (by simpa using h)]
      simp
  | flush =>
    rw [Drv.Driver.runOp, Drv.flush_table_eq d]
    simp

theorem Drv.runOps_offsets (ops : List Drv.Op) (d : Drv.Driver) :
    ((Drv.runOps d ops).2.map Drv.Flush.offset =
        List.range' d.offset (Drv.runOps d ops).2.length) ∧
      (Drv.runOps d ops).1.offset = d.offset + (Drv.runOps d ops).2.length := by
  induction ops generalizing d with
  | nil => simp [Drv.runOps]
  | cons op rest ih =>
    obtain ⟨h1, h2⟩ := Drv.runOp_offsets d op
    obtain ⟨h3, h4⟩ := ih (d.runOp op).1
    rw [Drv.runOps]
    cases hof : (d.runOp op).2 with
    | none =>
      rw [hof] at h2
      simp only [Option.toList_none, List.length_nil, Nat.add_zero] at h2
      simp only [Option.toList_none, List.nil_append]
      rw [h2] at h3 h4
      exact ⟨h3, h4⟩
    | some f =>
      rw [hof] at h1 h2
      simp only [Option.toList_some, List.length_cons, List.length_nil,
        Nat.zero_add, List.map_cons, List.map_nil] at h1 h2
      have hf : f.offset = d.offset := by
        have : List.range' d.offset 1 = [d.offset] := List.range'_one
        rw [this] at h1
        exact List.head_eq_of_cons_eq h1
      simp only [Option.toList_some, List.singleton_append, List.map_cons,
        List.length_cons]
      rw [h2] at h3 h4
      refine ⟨?_, by omega⟩
      rw [List.range'_succ, hf, h3]


/-! ### Claim theorems -/

/-- **C1**: with CAPACITY = 10, the ten writes of keys "0".."9" fill the
ActiveTable without any flush and leave it at capacity; the 11th write
(key "10") triggers exactly one flush whose Segment holds exactly the ten
previously written pairs in ascending key order, and afterwards the
ActiveTable holds exactly the newly written entry. -/
theorem c1_capacity_flush :
    (Drv.runOps ⟨Drv.MemTable.with_capacity 10, 0⟩ c1Ops).2 = [] ∧
    (Drv.runOps ⟨Drv.MemTable.with_capacity 10, 0⟩ c1Ops).1.master.at_capacity = true ∧
    ((Drv.runOps ⟨Drv.MemTable.with_capacity 10, 0⟩ c1Ops).1.write "10" 10).2 =
      .ok (some ⟨0, c1Entries, Drv.bincodeSSTable c1Entries⟩) ∧
    ((Drv.runOps ⟨Drv.MemTable.with_capacity 10, 0⟩ c1Ops).1.write "10" 10).1.master.items =
      [⟨"10", 10⟩] ∧
    (c1Entries.map Entry.key).Pairwise (fun a b => strLt a b = true) := by
  decide

/-- **C2** counterexample: after writing key "a" twice into a fresh
`db/mod.rs` MemTable the table holds one distinct key but `size` is 2, so
"count equals the number of distinct keys ever written" is false at this
input (it would require `size = 1`). -/
theorem c2_size_counts_overwrites :
    ((DbMod.MemTable.new.write "a" 1).write "a" 2).itemsMap = [("a", 2)] ∧
    ((DbMod.MemTable.new.write "a" 1).write "a" 2).size = 2 := by
  decide

/-- **C2** (amended): `size` equals the total number of `write` calls since
creation — every write, including an overwrite, increments it — and
writing the same key twice leaves the second value readable while growing
`size` by 2. -/
theorem c2_amended_size_is_write_count :
    (∀ writes : List (String × Nat),
      (writes.foldl (fun t p => t.write p.1 p.2) DbMod.MemTable.new).size =
        writes.length) ∧
    (∀ (t : DbMod.MemTable) (k : String) (v1 v2 : Nat),
      ((t.write k v1).write k v2).read k = some v2 ∧
        ((t.write k v1).write k v2).size = t.size + 2) := by
  constructor
  · intro writes
    rw [DbMod.size_fold]
    simp [DbMod.MemTable.new]
  · intro t k v1 v2
    refine ⟨?_, by simp [DbMod.MemTable.write]⟩
    simp only [DbMod.MemTable.write, DbMod.MemTable.read]
    exact mapGet_mapInsert_self k v2 _

/-- **C3** counterexample: for the `db/table.rs` MemTable, writing
("a", 1) then ("b", 2) makes `items()` return the keys as ["b", "a"],
which is not in ascending key order. -/
theorem c3_table_items_unsorted :
    ((TableRs.MemTable.new.write "a" 1).write "b" 2).items =
      [⟨"b", 2⟩, ⟨"a", 1⟩] ∧
    ¬ ((((TableRs.MemTable.new.write "a" 1).write "b" 2).items.map
        TableRs.KeyValue.key).Pairwise (fun a b => strLt a b = true)) := by
  decide

/-- **C3** (amended): for the `BTreeMap`-backed MemTable of `db.rs`,
reachable by any sequence of writes in any order (results dropped, as the
driver does), `items()` is in strictly ascending key order with each
distinct key exactly once; the `Vec`-backed `db/table.rs` iteration does
not have this property. -/
theorem c3_items_sorted (writes : List (String × Nat)) :
    (((writes.foldl (fun t p => t.writeD p.1 p.2) DbRs.MemTable.new).items.map
        Entry.key).Pairwise (fun a b => strLt a b = true)) ∧
    ((writes.foldl (fun t p => t.writeD p.1 p.2) DbRs.MemTable.new).items.map
        Entry.key).Nodup := by
  have hs := DbRs.sortedKeys_foldD writes DbRs.MemTable.new
    (by simp [DbRs.MemTable.new, SortedKeys])
  rw [SortedKeys] at hs
  constructor
  · simp only [DbRs.MemTable.items, List.map_map]
    rw [List.pairwise_map]
    exact hs
  · simp only [DbRs.MemTable.items, List.map_map]
    exact List.pairwise_map.mpr (hs.imp (fun h => strLt_ne _ _ h))

/-- **C4**: across any interleaving of `write` and `flush_table` calls on
one fresh Driver, the offsets recorded by successive flushes are exactly
0, 1, 2, ... — they start at 0, step by one per flush, and never repeat. -/
theorem c4_offsets_sequential (ops : List Drv.Op) :
    (Drv.runOps Drv.Driver.new ops).2.map Drv.Flush.offset =
      List.range (Drv.runOps Drv.Driver.new ops).2.length := by
  rw [List.range_eq_range' _]
  exact (Drv.runOps_offsets ops Drv.Driver.new).1


/-- **C5** counterexample: at a concrete at-capacity driver, a failing
serializer makes `flush_table` return the error — but the ActiveTable has
already been replaced by a fresh empty one, so the captured entry
("a", 1) is gone and the engine state is not "as if the flush had not
been attempted". -/
theorem c5_failed_flush_loses_entries :
    (Drv.flushWith failEncode c5Driver).2 = .error .BincodeError ∧
    c5Driver.master.read "a" = some 1 ∧
    (Drv.flushWith failEncode c5Driver).1.master.read "a" = none ∧
    (Drv.flushWith failEncode c5Driver).1.master ≠ c5Driver.master := by
  decide

/-- **C5** (amended): if the serializer fails during a flush, `flush_table`
propagates exactly that error and allocates no offset (the offset counter
is unchanged), and a `write` that triggered the flush propagates it too
without applying the triggering write — but the ActiveTable has already
been replaced by `MemTable::new()`, so the captured entries are dropped
rather than restored. -/
theorem c5_amended_error_propagated (encode : Drv.SSTable → Except Error (List Nat))
    (d : Drv.Driver) (e : Error) (k : String) (v : Nat)
    (h : encode (Drv.SSTable.fromTable d.master) = .error e) :
    Drv.flushWith encode d = ({ d with master := Drv.MemTable.new }, .error e) ∧
    (d.master.at_capacity = true →
      Drv.writeWith encode d k v =
        ({ d with master := Drv.MemTable.new }, .error e)) := by
  have h1 : Drv.flushWith encode d = ({ d with master := Drv.MemTable.new }, .error e) := by
    simp only [Drv.flushWith]
    rw [h]
  refine ⟨h1, fun hc => ?_⟩
  unfold Drv.writeWith
  rw [hc, h1]
  rfl

/-- **C5** witness: the amended statement at the concrete at-capacity
driver `c5Driver` with the failing serializer. -/
theorem c5_amended_witness :
    Drv.flushWith failEncode c5Driver =
      ({ c5Driver with master := Drv.MemTable.new }, .error .BincodeError) ∧
    (c5Driver.master.at_capacity = true →
      Drv.writeWith failEncode c5Driver "b" 2 =
        ({ c5Driver with master := Drv.MemTable.new }, .error .BincodeError)) :=
  c5_amended_error_propagated failEncode c5Driver .BincodeError "b" 2 rfl

/-- **C6**: at the first flush of a fresh driver with a sink that fails,
the persistence write inside the spawned task evaluates to an `IoError`,
yet the task body discards it (`let _ = write_sst(...)`; its value is the
unit of a fire-and-forget task, and the `JoinHandle` is dropped), and the
caller of `flush_table` still sees `Ok` — the failure reaches no channel
observable by the engine's caller, contradicting the claim. -/
theorem c6_persistence_error_dropped :
    Drv.write_sst failingSink 0 (Drv.bincodeSSTable []) = .error .IoError ∧
    Drv.spawnedTask failingSink 0 (Drv.bincodeSSTable []) = () ∧
    (Drv.Driver.new.flush_table).2 = .ok ⟨0, [], Drv.bincodeSSTable []⟩ :=
  ⟨rfl, rfl, rfl⟩

/-- **C7**: for every sequence of writes with pairwise-distinct keys and
fewer than CAPACITY writes, `read` on the resulting `db.rs` MemTable
returns the written value for every written key and `none` for every key
never written. -/
theorem c7_reads (writes : List (String × Nat))
    (hnd : (writes.map Prod.fst).Nodup)
    (hlen : writes.length < DbRs.CAPACITY) :
    (∀ k v, (k, v) ∈ writes →
      (writes.foldl (fun t p => t.writeD p.1 p.2) DbRs.MemTable.new).read k =
        some v) ∧
    (∀ k, k ∉ writes.map Prod.fst →
      (writes.foldl (fun t p => t.writeD p.1 p.2) DbRs.MemTable.new).read k =
        none) := by
  have hfold := DbRs.foldD_eq writes DbRs.MemTable.new
    (by simp [DbRs.MemTable.new]; omega)
  rw [hfold]
  constructor
  · intro k v hm
    simp only [DbRs.MemTable.read]
    exact mapGet_fold_mem writes _ k v hnd hm
  · intro k hk
    simp only [DbRs.MemTable.read]
    rw [mapGet_fold_not_mem writes _ k hk]
    rfl

/-- **C7** witness: the theorem applied to the two-write sequence
("a", 1), ("b", 2). -/
theorem c7_witness :
    ((([("a", 1), ("b", 2)] : List (String × Nat)).map Prod.fst).Nodup ∧
      ([("a", 1), ("b", 2)] : List (String × Nat)).length < DbRs.CAPACITY) ∧
    (([("a", 1), ("b", 2)] : List (String × Nat)).foldl
        (fun t p => t.writeD p.1 p.2) DbRs.MemTable.new).read "a" = some 1 ∧
    (([("a", 1), ("b", 2)] : List (String × Nat)).foldl
        (fun t p => t.writeD p.1 p.2) DbRs.MemTable.new).read "c" = none :=
  ⟨⟨by decide, by decide⟩,
    (c7_reads [("a", 1), ("b", 2)] (by decide) (by decide)).1 "a" 1 (by decide),
    (c7_reads [("a", 1), ("b", 2)] (by decide) (by decide)).2 "c" (by decide)⟩

/-- **C8** counterexample: the `db.rs` MemTable at `size = CAPACITY`
rejects a write with `MemTableFull` even though the key "a" is already
present and the write would only overwrite — so "write always succeeds
and never itself rejects for capacity reasons" is false for that
variant.  (The state is reachable: ten thousand writes of key "a".) -/
theorem c8_dbrs_rejects :
    DbRs.MemTable.write ⟨[("a", 1)], DbRs.CAPACITY⟩ "a" 9 =
      .error .MemTableFull := by
  decide

/-- **C8** (amended): `MemTable::write` inserts the key if absent or
overwrites it if present; the `db/mod.rs` variant always succeeds with no
return value, while the `db.rs` variant succeeds exactly when its `size`
counter differs from CAPACITY (the driver is expected to consult
`at_capacity()` first). -/
theorem c8_amended_write (t : DbRs.MemTable) (k : String) (v : Nat) :
    (t.size ≠ DbRs.CAPACITY →
      t.write k v = .ok ⟨mapInsert k v t.itemsMap, t.size + 1⟩ ∧
      ∀ k2, (⟨mapInsert k v t.itemsMap, t.size + 1⟩ : DbRs.MemTable).read k2 =
        if k2 = k then some v else t.read k2) ∧
    (∀ (u : DbMod.MemTable) (k2 : String),
      (u.write k v).read k2 = if k2 = k then some v else u.read k2) := by
  constructor
  · intro h
    refine ⟨by simp [DbRs.MemTable.write, h], fun k2 => ?_⟩
    by_cases hk : k2 = k
    · subst hk
      simp [DbRs.MemTable.read, mapGet_mapInsert_self]
    · simp [DbRs.MemTable.read, hk, mapGet_mapInsert_ne k k2 v t.itemsMap hk]
  · intro u k2
    by_cases hk : k2 = k
    · subst hk
      simp [DbMod.MemTable.write, DbMod.MemTable.read, mapGet_mapInsert_self]
    · simp [DbMod.MemTable.write, DbMod.MemTable.read, hk,
        mapGet_mapInsert_ne k k2 v u.itemsMap hk]

/-- **C8** witness: the amended statement at a fresh table and the write
("a", 1). -/
theorem c8_amended_witness :
    DbRs.MemTable.write DbRs.MemTable.new "a" 1 =
      .ok ⟨mapInsert "a" 1 DbRs.MemTable.new.itemsMap,
        DbRs.MemTable.new.size + 1⟩ :=
  ((c8_amended_write DbRs.MemTable.new "a" 1).1 (by decide)).1

/-- **C9**: if a flush succeeded, a second `flush_table` with no
intervening writes also succeeds (never an error) and captures a Segment
with zero entries. -/
theorem c9_double_flush (d : Drv.Driver) (f1 : Drv.Flush)
    (h : (d.flush_table).2 = .ok f1) :
    ∃ f2 : Drv.Flush,
      ((d.flush_table).1.flush_table).2 = .ok f2 ∧ f2.entries = [] := by
  refine ⟨⟨d.offset + 1, [], Drv.bincodeSSTable []⟩, ?_, rfl⟩
  rw [Drv.flush_table_eq, Drv.flush_table_eq]
  rfl

/-- **C9** witness: the theorem applied to a fresh driver. -/
theorem c9_witness :
    ∃ f2 : Drv.Flush,
      ((Drv.Driver.new.flush_table).1.flush_table).2 = .ok f2 ∧
        f2.entries = [] :=
  c9_double_flush Drv.Driver.new ⟨0, [], Drv.bincodeSSTable []⟩ rfl

/-- **C10**: the `db.rs` `MemTable::write` returns `Err(MemTableFull)`
exactly when `size == CAPACITY` — also when the key is present and the
write would only overwrite — in which case the map and `size` are left
unchanged; and since `size` counts overwrites, the rejection can occur
with fewer than CAPACITY distinct keys stored. -/
theorem c10_write_full (t : DbRs.MemTable) (k : String) (v : Nat) :
    (t.write k v = .error .MemTableFull ↔ t.size = DbRs.CAPACITY) ∧
    (t.size = DbRs.CAPACITY → t.writeD k v = t) ∧
    (∃ u : DbRs.MemTable, u.itemsMap.length < DbRs.CAPACITY ∧
      u.size = DbRs.CAPACITY ∧ u.write k v = .error .MemTableFull) := by
  refine ⟨?_, DbRs.writeD_of_eq t k v, ?_⟩
  · by_cases h : t.size = DbRs.CAPACITY
    · simp [DbRs.MemTable.write, h]
    · simp [DbRs.MemTable.write, h]
  · exact ⟨⟨[("a", 1)], DbRs.CAPACITY⟩, by decide, rfl,
      by simp [DbRs.MemTable.write]⟩

/-- **C10** witness: at a full table holding the single key "a", the
write ("b", 2) is rejected and the dropped-result write leaves the table
unchanged. -/
theorem c10_witness :
    DbRs.MemTable.write ⟨[("a", 1)], DbRs.CAPACITY⟩ "b" 2 =
        .error .MemTableFull ∧
      DbRs.MemTable.writeD ⟨[("a", 1)], DbRs.CAPACITY⟩ "b" 2 =
        ⟨[("a", 1)], DbRs.CAPACITY⟩ :=
  ⟨(c10_write_full ⟨[("a", 1)], DbRs.CAPACITY⟩ "b" 2).1.mpr rfl,
    (c10_write_full ⟨[("a", 1)], DbRs.CAPACITY⟩ "b" 2).2.1 rfl⟩

end Logos

